import Mathlib

/-!
Verification of the wiki-link / auto-linking core of the daily-journal app.

The definitions below are shallow embeddings of the TypeScript source:
`src/services/WikiLinkService.ts` (quoted in `README.md`),
`src/utils/markdownGenerator.ts` and `src/utils/fileSystem.ts`
(both appearing in `src/database/queries.ts` as concatenated sources),
`src/services/VaultService.ts` (`src/unnamed/part_000`), and the SQLite
layer of `src/database/queries.ts` together with its schema.

Strings are modelled as Lean `String`s (lists of characters); JavaScript
`toLowerCase` is modelled per-character with `Char.toLower`, `Map` as an
insertion-ordered association list with JavaScript `Map.set` semantics,
promise rejection as `Except`, and timestamps as natural numbers.
-/

deriving instance DecidableEq for Except

namespace DailyJournal

/-- Lowercase a string character by character (models JS `toLowerCase`). -/
def lowerS (s : String) : String := String.mk (s.data.map Char.toLower)

/-- The `n` characters of `s` starting at index `i`. -/
def extractL (s : List Char) (i n : Nat) : List Char := (s.drop i).take n

/-- Substring containment: `hay.includes(needle)` in JS. -/
def containsL (hay needle : List Char) : Bool :=
  (List.range (hay.length + 1)).any (fun i => decide (extractL hay i needle.length = needle))

/-- Suffix test used for the `Park$` regex alternative. -/
def endsWithL (hay suf : List Char) : Bool :=
  decide (suf.length ≤ hay.length) && decide (hay.drop (hay.length - suf.length) = suf)

/-- Worker for `jsDedup`, carrying the set of strings already emitted. -/
def jsDedupGo (seen : List String) : List String → List String
  | [] => []
  | x :: xs => if x ∈ seen then jsDedupGo seen xs else x :: jsDedupGo (x :: seen) xs

/-- Deduplicate keeping first occurrences, as `[...new Set(xs)]` does in JS. -/
def jsDedup (l : List String) : List String := jsDedupGo [] l

/-- Split on single spaces, as JS `text.split(' ')` (empty chunks kept). -/
def splitSp : List Char → List (List Char)
  | [] => [[]]
  | c :: rest =>
    match splitSp rest with
    | [] => [[c]]
    | w :: ws => if c = ' ' then [] :: w :: ws else (c :: w) :: ws

/-- JS `String.prototype.trim`, approximated with Unicode whitespace. -/
def trimL (l : List Char) : List Char :=
  ((l.dropWhile Char.isWhitespace).reverse.dropWhile Char.isWhitespace).reverse

/-- Word character in the sense of the regex `\b` and `\w`: `[A-Za-z0-9_]`. -/
def isWordChar (c : Char) : Bool := c.isAlpha || c.isDigit || c = '_'

/-- Whether the character at index `i` is a word character (out of range: no). -/
def wordAtD (s : List Char) (i : Nat) : Bool := isWordChar (s.getD i (Char.ofNat 0))

/-- Entity type of a wiki-link (`WikiLinkType` in `src/types`). -/
inductive WikiLinkType where
  | person | topic | place | concept | date | unknown
deriving DecidableEq, Repr

/-- In-memory wiki-link record (`WikiLink` in `src/types`; the optional
database `id` is carried separately by the store model). -/
structure WikiLink where
  text : String
  type : WikiLinkType
  frequency : Nat
  aliases : List String
  firstSeen : Nat
  lastUsed : Nat
deriving DecidableEq, Repr

/-- Regex `^\d{1,2}\.\d{2}\.\d{2}$` from `WikiLinkService.categorizeLink`. -/
def isDatePattern : List Char → Bool
  | [a, '.', c, d, '.', e, f] =>
    a.isDigit && c.isDigit && d.isDigit && e.isDigit && f.isDigit
  | [a, b, '.', c, d, '.', e, f] =>
    a.isDigit && b.isDigit && c.isDigit && d.isDigit && e.isDigit && f.isDigit
  | _ => false

/-- Regex `^[A-Z][a-z]+ [A-Z][a-z]+$` from `WikiLinkService.categorizeLink`. -/
def personPat : List Char → Bool
  | [] => false
  | c :: rest =>
    let ls := rest.takeWhile Char.isLower
    let r2 := rest.dropWhile Char.isLower
    c.isUpper && !ls.isEmpty &&
      (match r2 with
       | ' ' :: c2 :: rest2 => c2.isUpper && !rest2.isEmpty && rest2.all Char.isLower
       | _ => false)

/-- Regex `/National Park|2025|2026|Park$|Japan|Mt\.|Lake |River /i` from
`WikiLinkService.categorizeLink` (case-insensitive, `Park$` anchored). -/
def placePat (l : List Char) : Bool :=
  let low := l.map Char.toLower
  containsL low "national park".data || containsL low "2025".data ||
  containsL low "2026".data || endsWithL low "park".data ||
  containsL low "japan".data || containsL low "mt.".data ||
  containsL low "lake ".data || containsL low "river ".data

/-- Regex `/^(Lord|Christ|God|Heavenly Father|Holy Ghost|Faith|Gospel)$/i`
from `WikiLinkService.categorizeLink`. -/
def conceptPat (l : List Char) : Bool :=
  let low := l.map Char.toLower
  ["lord".data, "christ".data, "god".data, "heavenly father".data,
   "holy ghost".data, "faith".data, "gospel".data].any (fun w => decide (low = w))

/-- `WikiLinkService.categorizeLink`: first matching rule wins. -/
def categorizeLink (t : String) : WikiLinkType :=
  if isDatePattern t.data then .date
  else if personPat t.data then .person
  else if placePat t.data then .place
  else if conceptPat t.data then .concept
  else .unknown

/-- `WikiLinkService.generateAliases`: lowercase full text; if the text
contains a space, also the first token, and for exactly two tokens also the
second token; result deduplicated via `new Set`. -/
def generateAliases (t : String) : List String :=
  let base := [lowerS t]
  let withTokens :=
    if t.data.contains ' ' then
      let parts := splitSp t.data
      let a1 := base ++ [String.mk ((parts.headD []).map Char.toLower)]
      if parts.length = 2 then a1 ++ [String.mk ((parts.getD 1 []).map Char.toLower)]
      else a1
    else base
  jsDedup withTokens

/-- One position of the regex `(?<!\[\[)\b{escaped}\b(?!\]\])` built by
`autoLinkText` (`src/utils/markdownGenerator.ts`): the pattern text occurs at
index `i` of `s`, with word boundaries on both sides, not directly preceded
by `[[` and not directly followed by `]]`.  Lookarounds inspect the subject
string, exactly as the JS regex engine does.  The pattern is never empty in
the source (scan and add paths reject empty link texts). -/
def matchAt (s p : List Char) (i : Nat) : Bool :=
  let prevW := if i = 0 then false else wordAtD s (i - 1)
  let firstW := isWordChar (p.headD (Char.ofNat 0))
  let lastW := isWordChar (p.getLastD (Char.ofNat 0))
  let nextW := wordAtD s (i + p.length)
  decide (¬ p = []) &&
  decide (extractL s i p.length = p) &&
  (prevW != firstW) && (lastW != nextW) &&
  !(decide (2 ≤ i) && decide (s.getD (i - 2) (Char.ofNat 0) = '[') &&
      decide (s.getD (i - 1) (Char.ofNat 0) = '[')) &&
  !(decide (s.getD (i + p.length) (Char.ofNat 0) = ']') &&
      decide (s.getD (i + p.length + 1) (Char.ofNat 0) = ']'))

/-- Scanner for one global replace: walk `s` left to right; at a match emit
`[[p]]` and jump past the matched text, otherwise emit one character.  The
fuel argument bounds the number of steps (`s.length` always suffices). -/
def passGo (s p : List Char) : Nat → Nat → List Char
  | 0, i => s.drop i
  | f + 1, i =>
    if i < s.length then
      if matchAt s p i then
        '[' :: '[' :: (p ++ ']' :: ']' :: passGo s p f (i + p.length))
      else
        s.getD i (Char.ofNat 0) :: passGo s p f (i + 1)
    else []

/-- One `result.replace(pattern, ...)` call of `autoLinkText` for the
canonical text `p`. -/
def replacePass (s p : List Char) : List Char := passGo s p s.length 0

/-- JS `[...wikiLinks].sort((a, b) => b.text.length - a.text.length)`:
stable sort, longest canonical text first. -/
def sortByTextLenDesc (links : List WikiLink) : List WikiLink :=
  List.insertionSort (fun a b => b.text.length ≤ a.text.length) links

/-- `autoLinkText(text, wikiLinks)` from `src/utils/markdownGenerator.ts`:
sort by canonical-text length descending, then run one global replace per
entity (the `WikiLinkService.autoLinkText` method differs only in reading
the entity list from its cache and passing the `i` regex flag). -/
def autoLinkText (text : String) (wikiLinks : List WikiLink) : String :=
  String.mk ((sortByTextLenDesc wikiLinks).foldl
    (fun r l => replacePass r l.text.data) text.data)

/-- Row of the `wiki_links` table (`id INTEGER PRIMARY KEY AUTOINCREMENT`,
`text TEXT UNIQUE NOT NULL`, `type`, `frequency`, `first_seen`, `last_used`). -/
structure LinkRow where
  id : Nat
  text : String
  type : WikiLinkType
  frequency : Nat
  firstSeen : Nat
  lastUsed : Nat
deriving DecidableEq, Repr

/-- Row of the `wiki_link_aliases` table.  Per `initializeSchema` its columns
are `id INTEGER PRIMARY KEY AUTOINCREMENT`, `link_id INTEGER NOT NULL`,
`alias TEXT NOT NULL` with a foreign key on `link_id`; the schema declares
no UNIQUE constraint on `(link_id, alias)`. -/
structure AliasRow where
  id : Nat
  linkId : Nat
  aliasText : String
deriving DecidableEq, Repr

/-- State of the two wiki-link tables, with the AUTOINCREMENT counters
(`DELETE` does not reset them). -/
structure Db where
  links : List LinkRow
  nextLinkId : Nat
  aliases : List AliasRow
  nextAliasId : Nat
deriving DecidableEq, Repr

/-- Database with both tables empty. -/
def emptyDb : Db := { links := [], nextLinkId := 1, aliases := [], nextAliasId := 1 }

/-- `SELECT id, frequency FROM wiki_links WHERE text = ?` (first row). -/
def findRowByText (db : Db) (t : String) : Option LinkRow :=
  db.links.find? (fun r => decide (r.text = t))

/-- `upsertWikiLink` from `src/database/queries.ts`: select by exact text;
if a row exists, `UPDATE … SET frequency = existing.frequency + 1,
last_used = now, type = link.type WHERE id = existing.id` and return its id;
otherwise insert a fresh row carrying the given frequency and timestamps. -/
def upsertWikiLink (db : Db) (link : WikiLink) (now : Nat) : Nat × Db :=
  match db.links.find? (fun r => decide (r.text = link.text)) with
  | some r =>
    (r.id, { db with links := db.links.map (fun q =>
        if q.id = r.id then
          { q with frequency := r.frequency + 1, lastUsed := now, type := link.type }
        else q) })
  | none =>
    (db.nextLinkId,
     { db with
        links := db.links ++
          [{ id := db.nextLinkId, text := link.text, type := link.type,
             frequency := link.frequency, firstSeen := link.firstSeen,
             lastUsed := link.lastUsed }],
        nextLinkId := db.nextLinkId + 1 })

/-- `insertWikiLinkAlias`: `INSERT OR IGNORE INTO wiki_link_aliases
(link_id, alias) VALUES (?, ?)` with the alias lowercased.  `OR IGNORE`
skips the insert only when it would violate a uniqueness constraint; the
only uniqueness constraint on this table is the autoincrement primary key
`id`, which is always fresh, so the insert always happens. -/
def insertWikiLinkAlias (db : Db) (linkId : Nat) (aliasStr : String) : Db :=
  let row : AliasRow :=
    { id := db.nextAliasId, linkId := linkId, aliasText := lowerS aliasStr }
  if db.aliases.any (fun r => decide (r.id = row.id)) then db
  else { db with aliases := db.aliases ++ [row], nextAliasId := db.nextAliasId + 1 }

/-- `clearWikiLinks`: `DELETE FROM wiki_link_aliases; DELETE FROM wiki_links;`. -/
def clearWikiLinks (db : Db) : Db := { db with links := [], aliases := [] }

/-- `WikiLinkService.bulkAddLinks`: upsert each link, then insert each of its
aliases under the returned id. -/
def bulkAddLinks (db : Db) (links : List WikiLink) (now : Nat) : Db :=
  links.foldl (fun db link =>
    let p := upsertWikiLink db link now
    link.aliases.foldl (fun db a => insertWikiLinkAlias db p.1 a) p.2) db

/-- Number of `wiki_links` rows whose text equals `t`. -/
def countText (db : Db) (t : String) : Nat :=
  (db.links.map (fun r => r.text)).count t

/-- JS `Map.set`: replace the value in place if the key is present (keeping
its original position), otherwise append a new entry. -/
def jsMapSet (m : List (String × WikiLink)) (k : String) (v : WikiLink) :
    List (String × WikiLink) :=
  if m.any (fun p => decide (p.1 = k)) then
    m.map (fun p => if p.1 = k then (p.1, v) else p)
  else m ++ [(k, v)]

/-- JS `Map.get` as an option. -/
def jsMapGet (m : List (String × WikiLink)) (k : String) : Option WikiLink :=
  (m.find? (fun p => decide (p.1 = k))).map Prod.snd

/-- The keys `WikiLinkService.loadLinks` registers for one link, in `set`
order: lowercased canonical text first, then each lowercased alias. -/
def rawKeys (l : WikiLink) : List String := lowerS l.text :: l.aliases.map lowerS

/-- Cache insertion of one link: `cache.set(link.text.toLowerCase(), link)`
followed by one `set` per alias. -/
def applyEntity (m : List (String × WikiLink)) (l : WikiLink) :
    List (String × WikiLink) :=
  (rawKeys l).foldl (fun m k => jsMapSet m k l) m

/-- Cache contents after `loadLinks` walks the given link list in order. -/
def buildCache (links : List WikiLink) : List (String × WikiLink) :=
  links.foldl applyEntity []

/-- Partial-match test of `findMatch`:
`key.includes(lower) || lower.includes(key)`. -/
def keyMatches (key lower : String) : Bool :=
  containsL key.data lower.data || containsL lower.data key.data

/-- Whether some cache key of `l` passes the partial-match test. -/
def entityMatches (l : WikiLink) (lower : String) : Bool :=
  (rawKeys l).any (fun k => keyMatches k lower)

/-- The partial/substring step of `findMatch`: first cache entry, in
insertion order, whose key contains the input or is contained in it. -/
def findMatchSubstringStep (cache : List (String × WikiLink)) (lower : String) :
    Option WikiLink :=
  (cache.find? (fun p => keyMatches p.1 lower)).map Prod.snd

/-- Cache TTL, `CACHE_TTL_MS = 60 * 60 * 1000`. -/
def cacheTtlMs : Nat := 60 * 60 * 1000

/-- Mutable state of `WikiLinkService`: the cache map and its expiry. -/
structure SvcState where
  cache : List (String × WikiLink)
  cacheExpiry : Nat
deriving DecidableEq, Repr

/-- Persistent-store boundary used by `WikiLinkService`: each query either
yields a value or rejects (`Except.error` models a rejected promise). -/
structure Store where
  getAllWikiLinks : Except String (List WikiLink)
  findWikiLinkByAlias : String → Except String (Option WikiLink)

/-- `WikiLinkService.loadLinks`: keep a fresh non-empty cache; otherwise
reload everything from the store (an await of a rejected promise with no
surrounding try/catch rethrows, i.e. the error propagates). -/
def loadLinks (store : Store) (svc : SvcState) (now : Nat) :
    Except String SvcState :=
  if 0 < svc.cache.length ∧ now < svc.cacheExpiry then .ok svc
  else do
    let links ← store.getAllWikiLinks
    .ok { cache := buildCache links, cacheExpiry := now + cacheTtlMs }

/-- `WikiLinkService.findMatch`: load the cache, then exact cache hit, then
store alias lookup, then the partial/substring scan. -/
def findMatch (store : Store) (svc : SvcState) (now : Nat) (text : String) :
    Except String (Option WikiLink × SvcState) := do
  let svc1 ← loadLinks store svc now
  let lower := lowerS text
  match jsMapGet svc1.cache lower with
  | some l => .ok (some l, svc1)
  | none => do
    let dbm ← store.findWikiLinkByAlias lower
    match dbm with
    | some l => .ok (some l, svc1)
    | none => .ok (findMatchSubstringStep svc1.cache lower, svc1)

/-- Value returned by `findMatch`, discarding the cache state. -/
def findMatchVal (store : Store) (svc : SvcState) (now : Nat) (text : String) :
    Except String (Option WikiLink) :=
  (findMatch store svc now text).map Prod.fst

/-- Node of the on-disk document tree.  A `file` carries its content, or
`none` when `readTextFile` fails (it catches and returns null).  A
`brokenDir` is a directory for which `readDirectoryAsync` throws — including
the vault root itself when the tree cannot be enumerated at all. -/
inductive FsNode where
  | file (name : String) (content : Option String)
  | dir (name : String) (entries : List FsNode)
  | brokenDir (name : String)

/-- Recursive walk of `getAllMarkdownFiles` (`src/utils/fileSystem.ts`):
collect `.md` files depth-first; the `try/catch` inside `walk` swallows any
directory read error, so an unreadable directory contributes nothing and no
error ever escapes. -/
def walkFs (path : String) : FsNode → List (String × Option String)
  | .file n c => if endsWithL n.data ".md".data then [(path ++ "/" ++ n, c)] else []
  | .brokenDir _ => []
  | .dir n entries => entries.attach.flatMap
      (fun e => walkFs (path ++ "/" ++ n) e.1)
termination_by node => sizeOf node
decreasing_by
  have h := List.sizeOf_lt_of_mem e.2
  simp only [FsNode.dir.sizeOf_spec]
  omega

/-- `getAllMarkdownFiles(dir)`: total — it returns a (possibly empty) list
for every tree and never throws. -/
def getAllMarkdownFiles (vaultPath : String) (root : FsNode) :
    List (String × Option String) :=
  walkFs vaultPath root

/-- All `\[\[([^\]]+)\]\]` matches of `WIKILINK_PATTERN`, scanning left to
right as `RegExp.exec` with the `g` flag does: inner texts are the maximal
runs of non-`]` characters between `[[` and `]]`; on a failed candidate the
scan restarts one character later. -/
def mentionsGoF : Nat → List Char → List (List Char)
  | 0, _ => []
  | f + 1, l =>
    match l with
    | '[' :: '[' :: rest =>
      (match rest.dropWhile (fun c => c ≠ ']') with
       | ']' :: ']' :: rest3 =>
         let inner := rest.takeWhile (fun c => c ≠ ']')
         if inner.isEmpty then mentionsGoF f ('[' :: rest)
         else inner :: mentionsGoF f rest3
       | _ => mentionsGoF f ('[' :: rest))
    | _ :: rest => mentionsGoF f rest
    | [] => []

/-- Mention scan of a whole character list (fuel `l.length` is enough since
every step of `mentionsGoF` consumes at least one character). -/
def mentionsGo (l : List Char) : List (List Char) := mentionsGoF l.length l

/-- Mention texts a scan extracts from one document: each regex capture,
trimmed, empty results skipped (`if (!linkText) continue`). -/
def extractMentionTexts (content : String) : List String :=
  (mentionsGo content.data).filterMap (fun l =>
    let t := trimL l
    if t.isEmpty then none else some (String.mk t))

/-- One step of the scan aggregation map (a JS `Map` keyed by the raw
extracted text): bump the frequency of an existing entry in place, or append
a fresh entry categorized and aliased from the raw text. -/
def aggInsert (m : List (String × WikiLink)) (t : String) (now : Nat) :
    List (String × WikiLink) :=
  if m.any (fun p => decide (p.1 = t)) then
    m.map (fun p => if p.1 = t then (p.1, { p.2 with frequency := p.2.frequency + 1 }) else p)
  else
    m ++ [(t, { text := t, type := categorizeLink t, frequency := 1,
                aliases := generateAliases t, firstSeen := now, lastUsed := now })]

/-- `VaultService.scanVaultForLinks` (configuration and storage permission
assumed granted): enumerate markdown files, aggregate raw mention texts
(unreadable files skipped), then commit destructively — clear both tables
and bulk-add the aggregate — returning the number of unique raw texts.
Nothing inside the `try` block can throw, since `getAllMarkdownFiles` and
`readTextFile` both swallow their errors, so the `catch` path (abort with
no commit) is unreachable. -/
def scanVaultForLinks (vaultPath : String) (root : FsNode) (db : Db) (now : Nat) :
    Nat × Db :=
  let files := getAllMarkdownFiles vaultPath root
  let m := files.foldl (fun m f =>
    match f.2 with
    | none => m
    | some content => (extractMentionTexts content).foldl
        (fun m t => aggInsert m t now) m) []
  let links := m.map Prod.snd
  let db1 := clearWikiLinks db
  let db2 := bulkAddLinks db1 links now
  (links.length, db2)

/-- Corpus entity with canonical text `Big Red Dog`. -/
def linkBigRedDog : WikiLink :=
  { text := "Big Red Dog", type := .unknown, frequency := 4,
    aliases := ["big red dog", "big"], firstSeen := 0, lastUsed := 0 }

/-- Corpus entity with canonical text `Red`, a strictly interior substring of
`Big Red Dog`. -/
def linkRed : WikiLink :=
  { text := "Red", type := .unknown, frequency := 2,
    aliases := ["red"], firstSeen := 0, lastUsed := 0 }

/-- Corpus entity with canonical text `ab`. -/
def linkAb : WikiLink :=
  { text := "ab", type := .unknown, frequency := 3, aliases := [], firstSeen := 0, lastUsed := 0 }

/-- Corpus entity whose canonical text `]]` contains bracket characters. -/
def linkBrackets : WikiLink :=
  { text := "]]", type := .unknown, frequency := 1, aliases := [], firstSeen := 0, lastUsed := 0 }

/-- Corpus entity `abcd` with the same frequency as `linkAb` but a longer
canonical text. -/
def linkAbcd : WikiLink :=
  { text := "abcd", type := .unknown, frequency := 3, aliases := [], firstSeen := 0, lastUsed := 0 }

/-- Store returning `linkAb` before `linkAbcd` (equal frequencies keep rowid
order under `ORDER BY frequency DESC`) and holding no alias rows. -/
def tieStore : Store :=
  { getAllWikiLinks := .ok [linkAb, linkAbcd],
    findWikiLinkByAlias := fun _ => .ok none }

/-- Store whose every query rejects, modelling an unavailable database. -/
def failingStore : Store :=
  { getAllWikiLinks := .error "database unavailable",
    findWikiLinkByAlias := fun _ => .error "database unavailable" }

/-- Service state with an empty, expired cache. -/
def freshSvc : SvcState := { cache := [], cacheExpiry := 0 }

/-- Entity whose canonical text is `Nate`. -/
def linkNate : WikiLink :=
  { text := "Nate", type := .person, frequency := 5, aliases := ["nate"],
    firstSeen := 0, lastUsed := 0 }

/-- Entity `Nate Stapleton`, loaded after `linkNate`, whose alias `nate`
collides with `linkNate`'s canonical key. -/
def linkNateStapleton : WikiLink :=
  { text := "Nate Stapleton", type := .person, frequency := 3,
    aliases := ["nate stapleton", "nate", "stapleton"], firstSeen := 0, lastUsed := 0 }

/-- Store returning `linkNate` (frequency 5) then `linkNateStapleton`
(frequency 3), the `ORDER BY frequency DESC` order. -/
def nateStore : Store :=
  { getAllWikiLinks := .ok [linkNate, linkNateStapleton],
    findWikiLinkByAlias := fun _ => .ok none }

/-- Entity `Climbing` with no aliases beyond its canonical key. -/
def linkClimbing : WikiLink :=
  { text := "Climbing", type := .unknown, frequency := 2, aliases := [],
    firstSeen := 0, lastUsed := 0 }

/-- Entity `Nate Stapleton` with a disjoint key set, for the substring-step
witness. -/
def linkNateS2 : WikiLink :=
  { text := "Nate Stapleton", type := .person, frequency := 5, aliases := ["nate"],
    firstSeen := 0, lastUsed := 0 }

/-- Database holding one entity (`Nate Stapleton`) and its alias rows, the
corpus state before a scan. -/
def dbPrior : Db :=
  { links := [{ id := 1, text := "Nate Stapleton", type := .person,
                frequency := 3, firstSeen := 0, lastUsed := 0 }],
    nextLinkId := 2,
    aliases := [{ id := 1, linkId := 1, aliasText := "nate stapleton" },
                { id := 2, linkId := 1, aliasText := "nate" },
                { id := 3, linkId := 1, aliasText := "stapleton" }],
    nextAliasId := 4 }

/-! Theorems.  Each claim of the specification is settled below; helper
lemmas precede the claim theorems that use them. -/

/-- C1.  The no-overlap property fails on the code: with entities
`Big Red Dog` and `Red` in the corpus and input `Big Red Dog`, the rewrite
first wraps `Big Red Dog` in its entirety, but the span consumed by that
replacement is still rewritten again for `Red` — the lookbehind `(?<!\[\[)`
and lookahead `(?!\]\])` only guard the edges of the wrapped span, so the
strictly interior `Red` is wrapped a second time, producing
`[[Big [[Red]] Dog]]` instead of `[[Big Red Dog]]`. -/
theorem autoLink_overlap_violation :
    autoLinkText "Big Red Dog" [linkBigRedDog, linkRed] = "[[Big [[Red]] Dog]]" ∧
    autoLinkText "Big Red Dog" [linkBigRedDog, linkRed] ≠ "[[Big Red Dog]]" := by
  decide

/-- C2.  Idempotence fails on the code: with entities `ab` and `]]` and
input `ab]]x`, the first run leaves `ab` alone (the lookahead sees the
following `]]`) but wraps `]]`, producing `ab[[]]]]x`; the second run now
finds `ab` unguarded and wraps it, so the output changes to
`[[ab]][[]]]]x`. -/
theorem autoLink_idempotence_violation :
    autoLinkText "ab]]x" [linkAb, linkBrackets] = "ab[[]]]]x" ∧
    autoLinkText (autoLinkText "ab]]x" [linkAb, linkBrackets]) [linkAb, linkBrackets] =
      "[[ab]][[]]]]x" ∧
    autoLinkText (autoLinkText "ab]]x" [linkAb, linkBrackets]) [linkAb, linkBrackets] ≠
      autoLinkText "ab]]x" [linkAb, linkBrackets] := by
  decide

/-- C3.  Duplicate alias inserts are not no-ops: the schema has no
uniqueness constraint on `(link_id, alias)`, so `INSERT OR IGNORE` never
ignores, and inserting `(1, "climbing")` twice (link 1 exists, satisfying
the foreign key) leaves two identical `(link_id, alias)` rows instead of
one. -/
theorem insertAlias_duplicate_rows :
    (insertWikiLinkAlias dbPrior 1 "climbing").aliases =
      dbPrior.aliases ++ [{ id := 4, linkId := 1, aliasText := "climbing" }] ∧
    (insertWikiLinkAlias (insertWikiLinkAlias dbPrior 1 "climbing") 1 "climbing").aliases =
      dbPrior.aliases ++ [{ id := 4, linkId := 1, aliasText := "climbing" },
                          { id := 5, linkId := 1, aliasText := "climbing" }] ∧
    (insertWikiLinkAlias (insertWikiLinkAlias dbPrior 1 "climbing") 1 "climbing").aliases ≠
      (insertWikiLinkAlias dbPrior 1 "climbing").aliases := by
  decide

/-- C5.  When the vault root itself cannot be enumerated, the scan does not
abort: `getAllMarkdownFiles` swallows the error and yields no files, the
scan proceeds to the destructive commit, and the previously stored corpus
(one entity plus its alias rows) is cleared. -/
theorem scanVault_brokenRoot_clears :
    (scanVaultForLinks "/vault" (.brokenDir "Journal") dbPrior 100).1 = 0 ∧
    (scanVaultForLinks "/vault" (.brokenDir "Journal") dbPrior 100).2 =
      { links := [], nextLinkId := 2, aliases := [], nextAliasId := 4 } ∧
    dbPrior.links ≠ [] := by
  refine ⟨?_, ?_, by decide⟩ <;>
    · simp only [scanVaultForLinks, getAllMarkdownFiles, walkFs]
      decide

/-- C9.  `categorizeLink` is a pure function evaluating its rules in fixed
priority order with the first matching rule winning, and it maps `9.14.25`
to `date`, `John Smith` to `person`, `Lord` to `concept` and `Climbing` to
`unknown`. -/
theorem categorizeLink_spec :
    categorizeLink "9.14.25" = .date ∧
    categorizeLink "John Smith" = .person ∧
    categorizeLink "Lord" = .concept ∧
    categorizeLink "Climbing" = .unknown ∧
    (∀ t : String, isDatePattern t.data = true → categorizeLink t = .date) ∧
    (∀ t : String, isDatePattern t.data = false → personPat t.data = true →
      categorizeLink t = .person) ∧
    (∀ t : String, isDatePattern t.data = false → personPat t.data = false →
      placePat t.data = true → categorizeLink t = .place) ∧
    (∀ t : String, isDatePattern t.data = false → personPat t.data = false →
      placePat t.data = false → conceptPat t.data = true →
      categorizeLink t = .concept) ∧
    (∀ t : String, isDatePattern t.data = false → personPat t.data = false →
      placePat t.data = false → conceptPat t.data = false →
      categorizeLink t = .unknown) := by
  refine ⟨by decide, by decide, by decide, by decide, ?_, ?_, ?_, ?_, ?_⟩ <;>
    · intro t
      intros
      simp_all [categorizeLink]

/-- Witness for C9 at concrete inputs. -/
theorem categorizeLink_spec_witness :
    categorizeLink "9.14.25" = .date ∧ categorizeLink "Climbing" = .unknown :=
  ⟨categorizeLink_spec.2.2.2.2.1 "9.14.25" (by decide),
   categorizeLink_spec.2.2.2.2.2.2.2.2 "Climbing" (by decide) (by decide)
     (by decide) (by decide)⟩

/-- C6 counterexample.  A three-token text does not generate only the
full-text alias: the code pushes the first token whenever the text contains
a space, so `John Michael Smith` also yields the per-token alias `john`. -/
theorem generateAliases_threeToken_cex :
    generateAliases "John Michael Smith" = ["john michael smith", "john"] ∧
    "john" ∈ generateAliases "John Michael Smith" ∧
    "john" ≠ "john michael smith" := by
  decide

/-- C8 counterexample.  With the store rejecting every query and a stale
cache, both the cache load and `findMatch` reject instead of returning
none/empty: the error propagates to the caller. -/
theorem findMatch_storeError_cex :
    loadLinks failingStore freshSvc 5 = .error "database unavailable" ∧
    findMatch failingStore freshSvc 5 "nate" = .error "database unavailable" := by
  decide

/-- C8 amended.  Whenever the cache must reload (empty or expired) and the
store's bulk query rejects, both `loadLinks` and `findMatch` reject with the
same error — no conversion to none/empty happens on the way out. -/
theorem findMatch_storeError_amended (store : Store) (svc : SvcState) (now : Nat)
    (text : String) (e : String)
    (hstale : ¬ (0 < svc.cache.length ∧ now < svc.cacheExpiry))
    (herr : store.getAllWikiLinks = .error e) :
    loadLinks store svc now = .error e ∧ findMatch store svc now text = .error e := by
  have hl : loadLinks store svc now = .error e := by
    unfold loadLinks
    rw [if_neg hstale, herr]
    rfl
  refine ⟨hl, ?_⟩
  unfold findMatch
  rw [hl]
  rfl

/-- Witness for C8 at a concrete failing store. -/
theorem findMatch_storeError_amended_witness :
    loadLinks failingStore freshSvc 7 = .error "database unavailable" ∧
    findMatch failingStore freshSvc 7 "lord" = .error "database unavailable" :=
  findMatch_storeError_amended failingStore freshSvc 7 "lord" "database unavailable"
    (by decide) (by decide)

/-- Helper: `splitSp` never returns the empty list. -/
theorem splitSp_ne_nil (l : List Char) : splitSp l ≠ [] := by
  induction l with
  | nil => simp [splitSp]
  | cons c rest ih =>
    simp only [splitSp]
    cases h : splitSp rest with
    | nil => simp
    | cons w ws =>
      by_cases hc : c = ' ' <;> simp [hc]

/-- Helper: a split with at least two chunks means the text contains a
space. -/
theorem mem_space_of_splitSp_two_le (l : List Char) (h : 2 ≤ (splitSp l).length) :
    ' ' ∈ l := by
  induction l with
  | nil => simp [splitSp] at h
  | cons c rest ih =>
    by_cases hc : c = ' '
    · simp [hc]
    · simp only [splitSp] at h
      cases hs : splitSp rest with
      | nil => exact absurd hs (splitSp_ne_nil rest)
      | cons w ws =>
        rw [hs] at h
        simp only [if_neg hc] at h
        simp only [List.length_cons] at h
        have : 2 ≤ (splitSp rest).length := by rw [hs]; simp; omega
        exact List.mem_cons_of_mem c (ih this)

/-- Helper: deduplication keeps every element of the original list. -/
theorem mem_jsDedupGo :
    ∀ (l seen : List String) (x : String), x ∈ l → x ∉ seen → x ∈ jsDedupGo seen l := by
  intro l
  induction l with
  | nil => intro seen x hx; cases hx
  | cons y ys ih =>
    intro seen x hx hseen
    unfold jsDedupGo
    by_cases hy : y ∈ seen
    · rw [if_pos hy]
      rcases List.mem_cons.mp hx with h | h
      · subst h; exact absurd hy hseen
      · exact ih seen x h hseen
    · rw [if_neg hy]
      by_cases hxy : x = y
      · subst hxy; exact List.mem_cons_self x _
      · rcases List.mem_cons.mp hx with h | h
        · exact absurd h hxy
        · refine List.mem_cons_of_mem y (ih (y :: seen) x h ?_)
          intro hmem
          rcases List.mem_cons.mp hmem with h2 | h2
          · exact hxy h2
          · exact hseen h2

/-- Helper: `jsDedup` keeps (one occurrence of) every element. -/
theorem mem_jsDedup (x : String) (l : List String) (h : x ∈ l) : x ∈ jsDedup l :=
  mem_jsDedupGo l [] x h (by simp)

/-- C6 amended.  `generateAliases` always contains the lowercased full text;
the two concrete examples of the specification hold; a text splitting into
exactly two tokens generates the full-text alias plus both tokens
lowercased (each of which is in the result); and a text with more than two
tokens generates exactly the full-text alias plus the lowercased first
token (and nothing else). -/
theorem generateAliases_amended :
    (∀ t : String, lowerS t ∈ generateAliases t) ∧
    generateAliases "Nate Stapleton" = ["nate stapleton", "nate", "stapleton"] ∧
    generateAliases "Climbing" = ["climbing"] ∧
    (∀ t : String, (splitSp t.data).length = 2 →
      generateAliases t =
        jsDedup [lowerS t,
                 String.mk (((splitSp t.data).headD []).map Char.toLower),
                 String.mk (((splitSp t.data).getD 1 []).map Char.toLower)] ∧
      String.mk (((splitSp t.data).headD []).map Char.toLower) ∈ generateAliases t ∧
      String.mk (((splitSp t.data).getD 1 []).map Char.toLower) ∈ generateAliases t) ∧
    (∀ t : String, 2 < (splitSp t.data).length →
      generateAliases t =
        jsDedup [lowerS t, String.mk (((splitSp t.data).headD []).map Char.toLower)]) := by
  refine ⟨?_, by decide, by decide, ?_, ?_⟩
  · intro t
    have hmem : ∀ (x : String) (xs : List String), x ∈ jsDedup (x :: xs) := by
      intro x xs
      simp [jsDedup, jsDedupGo]
    unfold generateAliases
    by_cases hc : t.data.contains ' ' <;> simp only [hc, if_true, if_false]
    · by_cases h2 : (splitSp t.data).length = 2 <;>
        simp only [h2, if_true, if_false, List.cons_append, List.nil_append] <;>
        exact hmem _ _
    · exact hmem _ _
  · intro t h2
    have hsp : ' ' ∈ t.data := mem_space_of_splitSp_two_le t.data (by omega)
    have hc : t.data.contains ' ' = true := by
      simpa [List.contains] using List.elem_eq_true_of_mem hsp
    have heq : generateAliases t =
        jsDedup [lowerS t,
                 String.mk (((splitSp t.data).headD []).map Char.toLower),
                 String.mk (((splitSp t.data).getD 1 []).map Char.toLower)] := by
      unfold generateAliases
      simp only [hc, if_true, h2, if_pos, List.cons_append, List.nil_append]
    refine ⟨heq, ?_, ?_⟩ <;> rw [heq] <;> exact mem_jsDedup _ _ (by simp)
  · intro t h
    have hne : ¬ (splitSp t.data).length = 2 := by omega
    have hsp : ' ' ∈ t.data := mem_space_of_splitSp_two_le t.data (by omega)
    have hc : t.data.contains ' ' = true := by
      simpa [List.contains] using List.elem_eq_true_of_mem hsp
    unfold generateAliases
    simp only [hc, if_true, hne, if_false, List.cons_append, List.nil_append]

/-- Witness for C6 amended at concrete inputs, applying the universally
quantified clauses at `Nate Stapleton` (two tokens) and
`John Michael Smith` (three tokens). -/
theorem generateAliases_amended_witness :
    lowerS "Climbing" ∈ generateAliases "Climbing" ∧
    (generateAliases "Nate Stapleton" =
        jsDedup [lowerS "Nate Stapleton",
                 String.mk (((splitSp "Nate Stapleton".data).headD []).map Char.toLower),
                 String.mk (((splitSp "Nate Stapleton".data).getD 1 []).map Char.toLower)] ∧
      String.mk (((splitSp "Nate Stapleton".data).headD []).map Char.toLower) ∈
        generateAliases "Nate Stapleton" ∧
      String.mk (((splitSp "Nate Stapleton".data).getD 1 []).map Char.toLower) ∈
        generateAliases "Nate Stapleton") ∧
    generateAliases "John Michael Smith" =
      jsDedup [lowerS "John Michael Smith",
               String.mk (((splitSp "John Michael Smith".data).headD []).map Char.toLower)] :=
  ⟨generateAliases_amended.1 "Climbing",
   generateAliases_amended.2.2.2.1 "Nate Stapleton" (by decide),
   generateAliases_amended.2.2.2.2 "John Michael Smith" (by decide)⟩

/-- Helper: a `find?` over a list in which any two elements satisfying the
predicate are equal returns the given satisfying member. -/
theorem find?_eq_of_unique {α} (p : α → Bool) (l : List α) (r : α) (hr : r ∈ l)
    (hp : p r = true) (huniq : ∀ a ∈ l, ∀ b ∈ l, p a = true → p b = true → a = b) :
    l.find? p = some r := by
  induction l with
  | nil => cases hr
  | cons a t ih =>
    by_cases ha : p a = true
    · rw [List.find?_cons_of_pos _ ha]
      rcases List.mem_cons.mp hr with h | h
      · rw [h]
      · exact congrArg some (huniq a (List.mem_cons_self a t) r hr ha hp)
    · rw [List.find?_cons_of_neg _ (by simpa using ha)]
      rcases List.mem_cons.mp hr with h | h
      · subst h; exact absurd hp ha
      · exact ih h (fun x hx y hy => huniq x (List.mem_cons_of_mem _ hx)
          y (List.mem_cons_of_mem _ hy))

/-- Helper: mapping a predicate-preserving update over a list maps the first
match of `find?`. -/
theorem find?_map_of_found {α} (p : α → Bool) (u : α → α)
    (hpu : ∀ q, p (u q) = p q) :
    ∀ (l : List α) (r : α), l.find? p = some r → (l.map u).find? p = some (u r) := by
  intro l
  induction l with
  | nil => intro r h; cases h
  | cons a t ih =>
    intro r h
    by_cases ha : p a = true
    · rw [List.find?_cons_of_pos _ ha] at h
      cases h
      rw [List.map_cons, List.find?_cons_of_pos _ (by rw [hpu]; exact ha)]
    · rw [List.find?_cons_of_neg _ (by simpa using ha)] at h
      rw [List.map_cons, List.find?_cons_of_neg _ (by rw [hpu]; simpa using ha)]
      exact ih r h

/-- Helper: the canonical texts stored after an upsert — unchanged when the
text was already present, extended by it otherwise. -/
theorem upsert_map_text (db : Db) (link : WikiLink) (now : Nat) :
    (upsertWikiLink db link now).2.links.map (fun r => r.text) =
      (match db.links.find? (fun r => decide (r.text = link.text)) with
       | some _ => db.links.map (fun r => r.text)
       | none => db.links.map (fun r => r.text) ++ [link.text]) := by
  unfold upsertWikiLink
  cases hf : db.links.find? (fun r => decide (r.text = link.text)) with
  | none => simp
  | some r =>
    simp only [List.map_map]
    refine List.map_congr_left ?_
    intro q _
    by_cases h : q.id = r.id <;> simp [h]

/-- Helper: after an upsert the link's canonical text is stored. -/
theorem upsert_text_mem (db : Db) (link : WikiLink) (now : Nat) :
    link.text ∈ (upsertWikiLink db link now).2.links.map (fun r => r.text) := by
  rw [upsert_map_text]
  cases hf : db.links.find? (fun r => decide (r.text = link.text)) with
  | none => simp
  | some r =>
    have hm := List.mem_of_find?_eq_some hf
    have hp := List.find?_some hf
    simp only [decide_eq_true_eq] at hp
    exact List.mem_map.mpr ⟨r, hm, hp⟩

/-- Helper: an upsert keeps the stored canonical texts duplicate-free. -/
theorem upsert_nodup_text (db : Db) (link : WikiLink) (now : Nat)
    (hnt : (db.links.map (fun r => r.text)).Nodup) :
    ((upsertWikiLink db link now).2.links.map (fun r => r.text)).Nodup := by
  rw [upsert_map_text]
  cases hf : db.links.find? (fun r => decide (r.text = link.text)) with
  | none =>
    have hnotin : link.text ∉ db.links.map (fun r => r.text) := by
      intro hmem
      rcases List.mem_map.mp hmem with ⟨r, hr, hrt⟩
      have := List.find?_eq_none.mp hf r hr
      simp [hrt] at this
    simp [List.nodup_append, hnt, hnotin]
  | some r => exact hnt

/-- C7.  `upsertWikiLink` never creates a second row for a canonical text:
after one or two calls exactly one row carries `link.text`; an existing row
gets its frequency incremented by exactly 1, its `last_used` refreshed and
every other row kept; a fresh text appends exactly one row carrying the
given frequency; and no row's frequency ever decreases.  The two `Nodup`
hypotheses are the table's `UNIQUE(text)` and primary-key invariants. -/
theorem upsertWikiLink_spec (db : Db) (link : WikiLink) (now now2 : Nat)
    (hnt : (db.links.map (fun r => r.text)).Nodup)
    (hni : (db.links.map (fun r => r.id)).Nodup) :
    countText (upsertWikiLink db link now).2 link.text = 1 ∧
    countText (upsertWikiLink (upsertWikiLink db link now).2 link now2).2 link.text = 1 ∧
    ((upsertWikiLink (upsertWikiLink db link now).2 link now2).2.links.map
        (fun r => r.text) =
      (upsertWikiLink db link now).2.links.map (fun r => r.text)) ∧
    (∀ r ∈ db.links, r.text = link.text →
      findRowByText (upsertWikiLink db link now).2 link.text =
        some { r with frequency := r.frequency + 1, lastUsed := now,
                      type := link.type }) ∧
    (findRowByText db link.text = none →
      (upsertWikiLink db link now).2.links =
        db.links ++ [{ id := db.nextLinkId, text := link.text, type := link.type,
                       frequency := link.frequency, firstSeen := link.firstSeen,
                       lastUsed := link.lastUsed }]) ∧
    (∀ r ∈ db.links, ∃ r2 ∈ (upsertWikiLink db link now).2.links,
      r2.id = r.id ∧ r.frequency ≤ r2.frequency) := by
  have hnt1 := upsert_nodup_text db link now hnt
  have hmem1 := upsert_text_mem db link now
  refine ⟨?_, ?_, ?_, ?_, ?_, ?_⟩
  · exact List.count_eq_one_of_mem hnt1 hmem1
  · exact List.count_eq_one_of_mem
      (upsert_nodup_text _ link now2 hnt1) (upsert_text_mem _ link now2)
  · rw [upsert_map_text]
    have hsome : ∃ r ∈ (upsertWikiLink db link now).2.links,
        (fun r => decide (r.text = link.text)) r = true := by
      rcases List.mem_map.mp hmem1 with ⟨r, hr, hrt⟩
      exact ⟨r, hr, by simp [hrt]⟩
    rcases List.find?_isSome.mpr hsome |> Option.isSome_iff_exists.mp with ⟨r, hr⟩
    rw [hr]
  · intro r hr hrt
    have hf : db.links.find? (fun q => decide (q.text = link.text)) = some r := by
      refine find?_eq_of_unique _ _ r hr (by simp [hrt]) ?_
      intro a ha b hb hpa hpb
      simp only [decide_eq_true_eq] at hpa hpb
      exact List.inj_on_of_nodup_map hnt ha hb (by rw [hpa, hpb])
    unfold findRowByText upsertWikiLink
    rw [hf]
    simp only
    have := find?_map_of_found (fun q => decide (q.text = link.text))
      (fun q => if q.id = r.id then
        { q with frequency := r.frequency + 1, lastUsed := now, type := link.type }
      else q)
      (by intro q; by_cases h : q.id = r.id <;> simp [h])
      db.links r hf
    rw [this]
    simp
  · intro hnone
    unfold findRowByText at hnone
    unfold upsertWikiLink
    rw [hnone]
  · intro r hr
    cases hf : db.links.find? (fun q => decide (q.text = link.text)) with
    | none =>
      refine ⟨r, ?_, rfl, Nat.le_refl _⟩
      unfold upsertWikiLink
      rw [hf]
      exact List.mem_append_left _ hr
    | some r0 =>
      have hr0 := List.mem_of_find?_eq_some hf
      refine ⟨if r.id = r0.id then
          { r with frequency := r0.frequency + 1, lastUsed := now, type := link.type }
        else r, ?_, ?_, ?_⟩
      · unfold upsertWikiLink
        rw [hf]
        simpa using List.mem_map_of_mem _ hr
      · by_cases h : r.id = r0.id <;> simp [h]
      · by_cases h : r.id = r0.id
        · have : r = r0 := List.inj_on_of_nodup_map hni hr hr0 h
          simp [h, this]
        · simp [h]

/-- Witness for C7 at a concrete database and link. -/
theorem upsertWikiLink_spec_witness :
    countText (upsertWikiLink dbPrior linkClimbing 50).2 linkClimbing.text = 1 ∧
    (findRowByText dbPrior linkClimbing.text = none →
      (upsertWikiLink dbPrior linkClimbing 50).2.links =
        dbPrior.links ++ [{ id := dbPrior.nextLinkId, text := linkClimbing.text,
                            type := linkClimbing.type,
                            frequency := linkClimbing.frequency,
                            firstSeen := linkClimbing.firstSeen,
                            lastUsed := linkClimbing.lastUsed }]) :=
  ⟨(upsertWikiLink_spec dbPrior linkClimbing 50 60 (by decide) (by decide)).1,
   (upsertWikiLink_spec dbPrior linkClimbing 50 60 (by decide) (by decide)).2.2.2.2.1⟩

/-- Helper: cache lookup on a cons cell. -/
theorem jsMapGet_cons (q : String × WikiLink) (t : List (String × WikiLink)) (k2 : String) :
    jsMapGet (q :: t) k2 = if q.1 = k2 then some q.2 else jsMapGet t k2 := by
  unfold jsMapGet
  rw [List.find?_cons]
  by_cases h : q.1 = k2 <;> simp [h]

/-- Helper: lookups of a key other than `k` ignore an in-place overwrite of
`k`. -/
theorem jsMapGet_map_upd_other (k k2 : String) (v : WikiLink) (hne : k2 ≠ k) :
    ∀ m : List (String × WikiLink),
      jsMapGet (m.map (fun p => if p.1 = k then (p.1, v) else p)) k2 = jsMapGet m k2 := by
  intro m
  induction m with
  | nil => rfl
  | cons q t ih =>
    rw [List.map_cons]
    by_cases hq : q.1 = k
    · have hq2 : ¬ q.1 = k2 := by rw [hq]; exact fun h => hne h.symm
      rw [if_pos hq, jsMapGet_cons, jsMapGet_cons, if_neg hq2, if_neg hq2]
      exact ih
    · rw [if_neg hq, jsMapGet_cons, jsMapGet_cons]
      by_cases hq2 : q.1 = k2
      · rw [if_pos hq2, if_pos hq2]
      · rw [if_neg hq2, if_neg hq2]
        exact ih

/-- Helper: lookups of a key other than `k` ignore an appended `k` entry. -/
theorem jsMapGet_append_other (k k2 : String) (v : WikiLink) (hne : k2 ≠ k) :
    ∀ m : List (String × WikiLink), jsMapGet (m ++ [(k, v)]) k2 = jsMapGet m k2 := by
  intro m
  induction m with
  | nil =>
    have h : ¬ k = k2 := fun h => hne h.symm
    rw [List.nil_append, jsMapGet_cons, if_neg h]
  | cons q t ih =>
    rw [List.cons_append, jsMapGet_cons, jsMapGet_cons]
    by_cases hq2 : q.1 = k2
    · rw [if_pos hq2, if_pos hq2]
    · rw [if_neg hq2, if_neg hq2]
      exact ih

/-- Helper: overwriting key `k` in the cache makes `k` map to the new value,
whether `k` was present (value replaced in place) or not (entry appended). -/
theorem jsMapGet_set_self (k : String) (v : WikiLink) :
    ∀ m : List (String × WikiLink), jsMapGet (jsMapSet m k v) k = some v := by
  have hupd : ∀ m : List (String × WikiLink), (∃ p ∈ m, p.1 = k) →
      jsMapGet (m.map (fun p => if p.1 = k then (p.1, v) else p)) k = some v := by
    intro m
    induction m with
    | nil => rintro ⟨p, hp, -⟩; cases hp
    | cons q t ih =>
      intro hex
      rw [List.map_cons]
      by_cases hq : q.1 = k
      · rw [if_pos hq, jsMapGet_cons, if_pos hq]
      · rw [if_neg hq, jsMapGet_cons, if_neg hq]
        rcases hex with ⟨p, hp, hpk⟩
        rcases List.mem_cons.mp hp with h | h
        · subst h; exact absurd hpk hq
        · exact ih ⟨p, h, hpk⟩
  have happ : ∀ m : List (String × WikiLink), (∀ p ∈ m, ¬ p.1 = k) →
      jsMapGet (m ++ [(k, v)]) k = some v := by
    intro m
    induction m with
    | nil =>
      intro _
      rw [List.nil_append, jsMapGet_cons, if_pos rfl]
    | cons q t ih =>
      intro hall
      have hq : ¬ q.1 = k := hall q (List.mem_cons_self q t)
      rw [List.cons_append, jsMapGet_cons, if_neg hq]
      exact ih (fun p hp => hall p (List.mem_cons_of_mem _ hp))
  intro m
  unfold jsMapSet
  by_cases hany : m.any (fun p => decide (p.1 = k)) = true
  · rw [if_pos hany]
    rcases List.any_eq_true.mp hany with ⟨p, hp, hpk⟩
    exact hupd m ⟨p, hp, by simpa using hpk⟩
  · rw [if_neg hany]
    refine happ m ?_
    intro p hp hpk
    exact hany (List.any_eq_true.mpr ⟨p, hp, by simpa using hpk⟩)

/-- Helper: setting key `k` leaves lookups of any other key unchanged. -/
theorem jsMapGet_set_other (k k2 : String) (v : WikiLink) (hne : k2 ≠ k)
    (m : List (String × WikiLink)) :
    jsMapGet (jsMapSet m k v) k2 = jsMapGet m k2 := by
  unfold jsMapSet
  by_cases hany : m.any (fun p => decide (p.1 = k)) = true
  · rw [if_pos hany]
    exact jsMapGet_map_upd_other k k2 v hne m
  · rw [if_neg hany]
    exact jsMapGet_append_other k k2 v hne m

/-- Helper: folding `jsMapSet` over a key list avoiding `k` leaves lookups
of `k` unchanged. -/
theorem foldl_set_get_not_mem (k : String) (v : WikiLink) :
    ∀ (ks : List String) (m : List (String × WikiLink)), k ∉ ks →
      jsMapGet (ks.foldl (fun m k2 => jsMapSet m k2 v) m) k = jsMapGet m k := by
  intro ks
  induction ks with
  | nil => intro m _; rfl
  | cons b t ih =>
    intro m hnot
    rw [List.foldl_cons]
    have hb : k ≠ b := fun h => hnot (h ▸ List.mem_cons_self b t)
    rw [ih _ (fun h => hnot (List.mem_cons_of_mem _ h))]
    exact jsMapGet_set_other b k v hb m

/-- Helper: folding `jsMapSet` over a key list containing `k` leaves `k`
mapped to the inserted value. -/
theorem foldl_set_get_mem (k : String) (v : WikiLink) :
    ∀ (ks : List String) (m : List (String × WikiLink)), k ∈ ks →
      jsMapGet (ks.foldl (fun m k2 => jsMapSet m k2 v) m) k = some v := by
  intro ks
  induction ks with
  | nil => intro m h; cases h
  | cons a t ih =>
    intro m hk
    rw [List.foldl_cons]
    by_cases ht : k ∈ t
    · exact ih _ ht
    · have hak : a = k := by
        rcases List.mem_cons.mp hk with h | h
        · exact h.symm
        · exact absurd h ht
      rw [foldl_set_get_not_mem k v t _ ht, ← hak]
      exact jsMapGet_set_self a v m

/-- Helper: inserting an entity that registers key `k` maps `k` to that
entity. -/
theorem applyEntity_get_mem (m : List (String × WikiLink)) (e : WikiLink)
    (k : String) (hk : k ∈ rawKeys e) :
    jsMapGet (applyEntity m e) k = some e :=
  foldl_set_get_mem k e (rawKeys e) m hk

/-- Helper: inserting an entity that does not register key `k` leaves `k`'s
lookup unchanged. -/
theorem applyEntity_get_not_mem (m : List (String × WikiLink)) (e : WikiLink)
    (k : String) (hk : k ∉ rawKeys e) :
    jsMapGet (applyEntity m e) k = jsMapGet m k :=
  foldl_set_get_not_mem k e (rawKeys e) m hk

/-- Helper: a fold over entities none of which registers `k` preserves `k`'s
lookup. -/
theorem foldl_apply_get_not_mem (k : String) :
    ∀ (L : List WikiLink) (m : List (String × WikiLink)),
      (∀ e ∈ L, k ∉ rawKeys e) →
      jsMapGet (L.foldl applyEntity m) k = jsMapGet m k := by
  intro L
  induction L with
  | nil => intro m _; rfl
  | cons e t ih =>
    intro m hall
    rw [List.foldl_cons, ih _ (fun x hx => hall x (List.mem_cons_of_mem _ hx))]
    exact applyEntity_get_not_mem m e k (hall e (List.mem_cons_self e t))

/-- C10.  The cache load inserts entities in the store's
frequency-descending order, each key insertion overwriting any existing
entry for the same lowercased key.  Hence when an alias of a later-loaded
entity `e2` collides with the lowercased canonical text of an
earlier-loaded entity `e1` (and nothing after `e2` re-registers that key),
the cache maps that key to `e2`, and `findMatch` on `e1`'s canonical text
answers `e2` at the exact-match step — an alias shadows another entity's
canonical text. -/
theorem loadLinks_alias_shadowing (store : Store) (now : Nat)
    (links L1 L2 : List WikiLink) (e1 e2 : WikiLink) (a : String)
    (hlinks : links = L1 ++ e2 :: L2)
    (he1 : e1 ∈ L1) (hne : e1 ≠ e2)
    (hsorted : links.Sorted (fun x y => y.frequency ≤ x.frequency))
    (ha : a ∈ e2.aliases) (hak : lowerS a = lowerS e1.text)
    (hafter : ∀ e ∈ L2, lowerS e1.text ∉ rawKeys e)
    (hstore : store.getAllWikiLinks = .ok links) :
    jsMapGet (buildCache links) (lowerS e1.text) = some e2 ∧
    findMatchVal store freshSvc now e1.text = .ok (some e2) ∧
    some e2 ≠ some e1 := by
  have hk : lowerS e1.text ∈ rawKeys e2 := by
    unfold rawKeys
    exact List.mem_cons_of_mem _ (hak ▸ List.mem_map_of_mem lowerS ha)
  have hget : jsMapGet (buildCache links) (lowerS e1.text) = some e2 := by
    rw [hlinks]
    unfold buildCache
    rw [List.foldl_append, List.foldl_cons, foldl_apply_get_not_mem _ L2 _ hafter]
    exact applyEntity_get_mem _ e2 _ hk
  have hload : loadLinks store freshSvc now =
      .ok { cache := buildCache links, cacheExpiry := now + cacheTtlMs } := by
    unfold loadLinks
    rw [if_neg (by simp [freshSvc]), hstore]
    rfl
  refine ⟨hget, ?_, by simp [Ne.symm hne]⟩
  have hfm : findMatch store freshSvc now e1.text =
      .ok (some e2, { cache := buildCache links, cacheExpiry := now + cacheTtlMs }) := by
    unfold findMatch
    rw [hload]
    show (match jsMapGet (buildCache links) (lowerS e1.text) with
          | some l =>
            Except.ok (some l, { cache := buildCache links, cacheExpiry := now + cacheTtlMs })
          | none => do
            let dbm ← store.findWikiLinkByAlias (lowerS e1.text)
            match dbm with
            | some l =>
              Except.ok (some l,
                ({ cache := buildCache links, cacheExpiry := now + cacheTtlMs } : SvcState))
            | none =>
              Except.ok (findMatchSubstringStep (buildCache links) (lowerS e1.text),
                { cache := buildCache links, cacheExpiry := now + cacheTtlMs })) =
        Except.ok (some e2, { cache := buildCache links, cacheExpiry := now + cacheTtlMs })
    rw [hget]
  unfold findMatchVal
  rw [hfm]
  rfl

/-- Witness for C10: `Nate Stapleton` (loaded second, alias `nate`) shadows
the canonical key of entity `Nate` (loaded first); `findMatch "Nate"`
returns `Nate Stapleton`. -/
theorem loadLinks_alias_shadowing_witness :
    jsMapGet (buildCache [linkNate, linkNateStapleton]) (lowerS linkNate.text) =
      some linkNateStapleton ∧
    findMatchVal nateStore freshSvc 0 linkNate.text = .ok (some linkNateStapleton) ∧
    some linkNateStapleton ≠ some linkNate :=
  loadLinks_alias_shadowing nateStore 0 [linkNate, linkNateStapleton]
    [linkNate] [] linkNate linkNateStapleton "nate"
    rfl (by decide) (by decide) (by decide) (by decide) (by decide)
    (by intro e he; cases he) rfl

/-- Helper: inserting a key absent from the cache appends the entry. -/
theorem jsMapSet_fresh (m : List (String × WikiLink)) (k : String) (v : WikiLink)
    (h : ∀ p ∈ m, p.1 ≠ k) : jsMapSet m k v = m ++ [(k, v)] := by
  unfold jsMapSet
  rw [if_neg]
  intro hany
  rcases List.any_eq_true.mp hany with ⟨p, hp, hpk⟩
  exact h p hp (by simpa using hpk)

/-- Helper: folding fresh, duplicate-free keys appends one entry per key. -/
theorem foldl_set_fresh (v : WikiLink) :
    ∀ (ks : List String) (m : List (String × WikiLink)), ks.Nodup →
      (∀ k ∈ ks, ∀ p ∈ m, p.1 ≠ k) →
      ks.foldl (fun m k => jsMapSet m k v) m = m ++ ks.map (fun k => (k, v)) := by
  intro ks
  induction ks with
  | nil => intro m _ _; simp
  | cons a t ih =>
    intro m hnd hfresh
    rw [List.foldl_cons,
      jsMapSet_fresh m a v (hfresh a (List.mem_cons_self a t)),
      ih _ (List.Nodup.of_cons hnd) ?_]
    · simp
    · intro k hk p hp
      rcases List.mem_append.mp hp with h | h
      · exact hfresh k (List.mem_cons_of_mem _ hk) p h
      · rcases List.mem_singleton.mp h with rfl
        intro hak
        have hak2 : a = k := hak
        exact (List.nodup_cons.mp hnd).1 (hak2 ▸ hk)

/-- Helper: with globally duplicate-free keys, the cache built by
`loadLinks` is the concatenation, entity by entity in load order, of one
entry per registered key. -/
theorem buildCache_flat :
    ∀ (links : List WikiLink) (m : List (String × WikiLink)),
      (links.flatMap rawKeys).Nodup →
      (∀ k ∈ links.flatMap rawKeys, ∀ p ∈ m, p.1 ≠ k) →
      links.foldl applyEntity m =
        m ++ links.flatMap (fun l => (rawKeys l).map (fun k => (k, l))) := by
  intro links
  induction links with
  | nil => intro m _ _; simp
  | cons e t ih =>
    intro m hnd hfresh
    rw [List.flatMap_cons] at hnd
    have hnde : (rawKeys e).Nodup := (List.nodup_append.mp hnd).1
    have hdisj := (List.nodup_append.mp hnd).2.2
    have happly : applyEntity m e = m ++ (rawKeys e).map (fun k => (k, e)) :=
      foldl_set_fresh e (rawKeys e) m hnde
        (fun k hk p hp => hfresh k (List.mem_flatMap.mpr ⟨e, List.mem_cons_self e t, hk⟩) p hp)
    rw [List.foldl_cons, happly, ih _ (List.nodup_append.mp hnd).2.1 ?_]
    · simp [List.flatMap_cons, List.append_assoc]
    · intro k hk p hp
      rcases List.mem_append.mp hp with h | h
      · exact hfresh k (by rw [List.flatMap_cons]; exact List.mem_append_right _ hk) p h
      · rcases List.mem_map.mp h with ⟨k2, hk2, rfl⟩
        intro hkk
        exact hdisj (hkk ▸ hk2) hk

/-- Helper: the substring scan over one entity's key entries finds the first
matching key of that entity. -/
theorem find?_entries (lower : String) (e : WikiLink) :
    ∀ ks : List String,
      ((ks.map (fun k => (k, e))).find? (fun p => keyMatches p.1 lower)) =
        (ks.find? (fun k => keyMatches k lower)).map (fun k => (k, e)) := by
  intro ks
  induction ks with
  | nil => rfl
  | cons a t ih =>
    rw [List.map_cons, List.find?_cons, List.find?_cons]
    cases h : keyMatches a lower <;> simp [h, ih]

/-- Helper: over the flattened cache the substring step returns exactly the
first entity, in load order, having any matching key. -/
theorem substringStep_flat (lower : String) :
    ∀ links : List WikiLink,
      findMatchSubstringStep
        (links.flatMap (fun l => (rawKeys l).map (fun k => (k, l)))) lower =
      links.find? (fun l => entityMatches l lower) := by
  intro links
  induction links with
  | nil => rfl
  | cons e t ih =>
    rw [List.flatMap_cons]
    unfold findMatchSubstringStep at ih ⊢
    rw [List.find?_append, find?_entries lower e (rawKeys e), List.find?_cons]
    cases hm : entityMatches e lower with
    | true =>
      unfold entityMatches at hm
      have hsome : ((rawKeys e).find? (fun k => keyMatches k lower)).isSome := by
        rw [List.find?_isSome]
        rcases List.any_eq_true.mp hm with ⟨k, hk, hkm⟩
        exact ⟨k, hk, hkm⟩
      rcases Option.isSome_iff_exists.mp hsome with ⟨k0, hk0⟩
      rw [hk0]
      rfl
    | false =>
      unfold entityMatches at hm
      have hnone : (rawKeys e).find? (fun k => keyMatches k lower) = none := by
        rw [List.find?_eq_none]
        intro k hk
        simp only [List.any_eq_false] at hm
        simpa using hm k hk
      rw [hnone]
      exact ih

/-- Helper: the first `find?` hit in a frequency-sorted list dominates every
other element satisfying the predicate. -/
theorem find?_first_max {r : WikiLink → WikiLink → Prop} (p : WikiLink → Bool) :
    ∀ (l : List WikiLink) (e : WikiLink), l.Sorted r → l.find? p = some e →
      ∀ b ∈ l, p b = true → r e b ∨ e = b := by
  intro l
  induction l with
  | nil => intro e _ h; cases h
  | cons a t ih =>
    intro e hs hf b hb hpb
    rw [List.find?_cons] at hf
    cases hpa : p a with
    | true =>
      rw [hpa] at hf
      cases hf
      rcases List.mem_cons.mp hb with h | h
      · exact Or.inr h.symm
      · exact Or.inl ((List.sorted_cons.mp hs).1 b h)
    | false =>
      rw [hpa] at hf
      rcases List.mem_cons.mp hb with h | h
      · subst h; rw [hpb] at hpa; cases hpa
      · exact ih e (List.sorted_cons.mp hs).2 hf b h hpb

/-- C4 counterexample.  With two cached entities of equal frequency, keys
`ab` and `abcd`, and input `abc` reaching the partial step, both keys match
but the code returns the first entry in cache insertion order — the
shorter-keyed `ab` entity — whereas the claimed tie-break (frequency, then
longer key) demands the `abcd` entity. -/
theorem findMatch_tiebreak_cex :
    findMatchVal tieStore freshSvc 0 "abc" = .ok (some linkAb) ∧
    linkAb.frequency = linkAbcd.frequency ∧
    linkAb.text.length < linkAbcd.text.length ∧
    entityMatches linkAbcd (lowerS "abc") = true ∧
    entityMatches linkAb (lowerS "abc") = true ∧
    linkAb ≠ linkAbcd := by
  decide

/-- C4 amended.  When the substring step succeeds, it returns the first
entity in cache insertion order with a matching key; because `loadLinks`
inserts entities in the store's frequency-descending order, the returned
entity has maximal frequency among the matching ones (given
collision-free keys), but a frequency tie is broken by load order — not by
key length. -/
theorem findMatch_substring_amended (links : List WikiLink) (lower : String)
    (e : WikiLink)
    (hsort : links.Sorted (fun x y => y.frequency ≤ x.frequency))
    (hnodup : (links.flatMap rawKeys).Nodup)
    (hfind : findMatchSubstringStep (buildCache links) lower = some e) :
    e ∈ links ∧ entityMatches e lower = true ∧
    ∀ e2 ∈ links, entityMatches e2 lower = true → e2.frequency ≤ e.frequency := by
  have hflat : buildCache links =
      links.flatMap (fun l => (rawKeys l).map (fun k => (k, l))) := by
    unfold buildCache
    simpa using buildCache_flat links [] hnodup (by intro k _ p hp; cases hp)
  rw [hflat, substringStep_flat] at hfind
  have hpe := List.find?_some (p := fun l => entityMatches l lower) hfind
  simp only at hpe
  refine ⟨List.mem_of_find?_eq_some hfind, hpe, ?_⟩
  intro e2 he2 hm
  rcases find?_first_max _ links e hsort hfind e2 he2 hm with h | h
  · exact h
  · rw [h]

/-- Witness for C4 amended: entities `Nate Stapleton` (frequency 5) and
`Climbing` (frequency 2), input `nate s`. -/
theorem findMatch_substring_amended_witness :
    linkNateS2 ∈ [linkNateS2, linkClimbing] ∧
    entityMatches linkNateS2 "nate s" = true ∧
    linkNateS2.frequency ≤ linkNateS2.frequency :=
  have h := findMatch_substring_amended [linkNateS2, linkClimbing] "nate s"
    linkNateS2 (by decide) (by decide) (by decide)
  ⟨h.1, h.2.1, h.2.2 linkNateS2 (by decide) (by decide)⟩

end DailyJournal
